import Mathlib

/-!
Verification development for the threatreg service-documentation generator
(`docs/generate_service_docs.py`).  The Python source is shallowly embedded:
file text is a `String`, split into lines over `List Char`; every helper
mirrors the Python string operation it is named after.  All definitions are
executable and structural, so concrete runs reduce by `rfl`/`decide`.
-/

/-- Whitespace characters recognised by Python's `str.strip` / `\s` for the
ASCII texts handled here: space, tab, newline, carriage return, form feed,
vertical tab. -/
def pySpace (c : Char) : Bool :=
  c = ' ' || c = '\t' || c = '\n' || c = '\r' || c = '\x0c' || c = '\x0b'

/-- The regex class `[A-Z]`. -/
def isUpperAZ (c : Char) : Bool := 'A' ≤ c && c ≤ 'Z'

/-- The regex class `[a-zA-Z0-9]`. -/
def isAlnumAZ (c : Char) : Bool :=
  ('a' ≤ c && c ≤ 'z') || ('A' ≤ c && c ≤ 'Z') || ('0' ≤ c && c ≤ '9')

/-- Python `str.lstrip()` on a line of characters. -/
def lstripL (l : List Char) : List Char := l.dropWhile pySpace

/-- Python `str.rstrip()` on a line of characters. -/
def rstripL (l : List Char) : List Char := (l.reverse.dropWhile pySpace).reverse

/-- Python `str.strip()` on a line of characters. -/
def stripL (l : List Char) : List Char := lstripL (rstripL l)

/-- Python `content.split(sep)` for a one-character separator (used with
`'\n'` by `extract_go_functions` and with `'/'` by the path model). -/
def splitOnChar (sep : Char) : List Char → List (List Char)
  | [] => [[]]
  | c :: rest =>
    match splitOnChar sep rest, decide (c = sep) with
    | r, true => [] :: r
    | [], false => [[c]]
    | l :: ls, false => (c :: l) :: ls

/-- `re.sub(r'\s+', ' ', s)`: every maximal whitespace run becomes one space. -/
def collapseWs : List Char → List Char
  | [] => []
  | [c] => if pySpace c then [' '] else [c]
  | c :: d :: rest =>
    if pySpace c && pySpace d then collapseWs (d :: rest)
    else (if pySpace c then ' ' else c) :: collapseWs (d :: rest)

/-- `re.sub(r'\s*{\s*$', '', s)`: drop one trailing `\x7b` together with the
whitespace around it, when the string ends that way; otherwise unchanged. -/
def stripTrailingBrace (l : List Char) : List Char :=
  match l.reverse.dropWhile pySpace with
  | '\x7b' :: rest => (rest.dropWhile pySpace).reverse
  | _ => l

/-- `' '.join(signature_lines)`. -/
def joinSp (ls : List (List Char)) : List Char := List.intercalate [' '] ls

/-- The scanner's candidate test on an already-stripped line:
`line.startswith('func ') and re.match(r'func\s+[A-Z]', line)`. -/
def isCandidate (s : List Char) : Bool :=
  decide (s.take 5 = ['f', 'u', 'n', 'c', ' ']) &&
    (match (s.drop 4).dropWhile pySpace with
     | c :: _ => isUpperAZ c
     | [] => false)

/-- Backward documentation scan of `extract_go_functions` (lines 50-64 of the
source): the argument is one past the index under inspection, so
`collectDocsAux lines i []` starts at line `i - 1` and walks toward the top,
collecting `//` lines (marker stripped, trimmed) and skipping blank lines,
stopping at any other content. -/
def collectDocsAux (lines : List (List Char)) : Nat → List (List Char) → List (List Char)
  | 0, acc => acc
  | j + 1, acc =>
    let s := stripL (lines.getD j [])
    if s.take 2 = ['/', '/'] then collectDocsAux lines j (stripL (s.drop 2) :: acc)
    else if s = [] then collectDocsAux lines j acc
    else acc

/-- The forward peek of the signature scan (source lines 89-94): skip blank
lines and report whether the next non-blank line starts with `\x7b`. -/
def peekPure (rest : List (List Char)) : Bool :=
  match rest.dropWhile (fun m => decide (stripL m = [])) with
  | [] => false
  | m :: _ => decide ((stripL m).take 1 = ['\x7b'])

/-- Forward signature reconstruction (source lines 66-96), walking the suffix
of the file that starts at the candidate line.  `paren` is the running
parenthesis counter (a Python `int`, so it may go negative), `inFunc` the
`in_func` flag, `isFirst` records whether the current index still equals the
candidate index (Python's `k > i` test is its negation).  The unused
`brace_count` of the source is omitted.  Falling off the end of the file
returns the accumulated lines, exactly as the Python loop does. -/
def sigScan : List (List Char) → Int → Bool → Bool → List (List Char) → List (List Char)
  | [], _, _, _, acc => acc.reverse
  | l :: rest, paren, inFunc, isFirst, acc =>
    let curr := stripL l
    let inF := inFunc || decide (curr.take 5 = ['f', 'u', 'n', 'c', ' '])
    if inF then
      let acc' := rstripL l :: acc
      let paren' := paren + (curr.count '(' : Int) - (curr.count ')' : Int)
      if curr.contains '\x7b' then acc'.reverse
      else if paren' = 0 ∧ isFirst = false then
        if peekPure rest then acc'.reverse
        else sigScan rest paren' inF false acc'
      else sigScan rest paren' inF false acc'
    else sigScan rest paren inF false acc

/-- `re.match(r'func\s+([A-Z][a-zA-Z0-9]*)', s)` returning the captured
group: `s` must start with `func`, then at least one whitespace character,
then an uppercase letter; the group is that letter followed by the maximal
alphanumeric run. -/
def funcNameMatch (s : List Char) : Option (List Char) :=
  if s.take 4 = ['f', 'u', 'n', 'c'] then
    let rest := s.drop 4
    if rest.takeWhile pySpace = [] then none
    else
      match rest.dropWhile pySpace with
      | c :: r3 => if isUpperAZ c then some (c :: r3.takeWhile isAlnumAZ) else none
      | [] => none
  else none

/-- One extracted function: the dictionary appended at source lines 110-115. -/
structure FunctionRecord where
  name : List Char
  signature : List Char
  documentation : List (List Char)
  lineNumber : Nat
deriving DecidableEq

/-- Processing of one candidate line `i` (source lines 49-115): backward doc
scan, forward signature scan, name re-match on the joined signature; `none`
when the name pattern fails to re-match (the Python `if name_match` guard). -/
def processCandidate (lines : List (List Char)) (i : Nat) : Option FunctionRecord :=
  let docs := collectDocsAux lines i []
  let sigLines := sigScan (lines.drop i) 0 false true []
  let full := stripL (joinSp sigLines)
  match funcNameMatch full with
  | some nm => some ⟨nm, stripTrailingBrace (collapseWs full), docs, i + 1⟩
  | none => none

/-- `extract_go_functions` on an already-split list of lines: the outer
`while i < len(lines)` loop, appending a record whenever the stripped line is
a candidate and the name re-matches. -/
def extractLines (lines : List (List Char)) : List FunctionRecord :=
  (List.range lines.length).filterMap fun i =>
    if isCandidate (stripL (lines.getD i [])) then processCandidate lines i else none

/-- `extract_go_functions` on the file text: `content.split('\n')` then the
line scanner.  File reading/decoding is the I/O collaborator's concern and is
not modelled. -/
def extractS (content : String) : List FunctionRecord :=
  extractLines (splitOnChar '\n' content.data)

/-- Python `s.endswith(pat)`. -/
def endsWithL (pat l : List Char) : Bool :=
  decide (pat.length ≤ l.length) && decide (l.drop (l.length - pat.length) = pat)

/-- Python `sub in s` (substring containment). -/
def containsSub (pat l : List Char) : Bool :=
  (List.range (l.length + 1)).any fun i => decide ((l.drop i).take pat.length = pat)

/-- `PurePosixPath(p).parts` restricted to the named components: split on
`'/'`, dropping empty components and `'.'` (a leading root part could never
equal a directory name, so it is not represented). -/
def pathParts (p : List Char) : List (List Char) :=
  (splitOnChar '/' p).filter fun s => decide (s ≠ []) && decide (s ≠ ['.'])

/-- `PurePosixPath(p).name`: the last named component. -/
def pathName (p : List Char) : List Char := (pathParts p).getLastD []

/-- `PurePosixPath(p).stem`: the name with its suffix removed, where the
suffix starts at the last dot provided that dot is neither the first nor the
last character of the name (CPython's `0 < i < len(name) - 1` rule). -/
def pathStem (p : List Char) : List Char :=
  let n := pathName p
  match n.reverse.findIdx? (fun c => decide (c = '.')) with
  | none => n
  | some j =>
    let i := n.length - 1 - j
    if 0 < i ∧ i < n.length - 1 then n.take i else n

/-- The fixed base-name table of `categorize_service_file` (source lines
146-155). -/
def category_map : List (List Char × String) :=
  [("control".data, "Control Management"),
   ("domain".data, "Domain Management"),
   ("instance".data, "Instance Management"),
   ("product".data, "Product Management"),
   ("threat".data, "Threat Management"),
   ("relationship".data, "Relationship Management"),
   ("tag".data, "Tag Management"),
   ("threat_resolution".data, "Threat Resolution Management")]

/-- `categorize_service_file` (source lines 122-157). -/
def categorize_service_file (file_path : String) : String :=
  if "threat_pattern".data ∈ pathParts file_path.data then
    let filename := pathStem file_path.data
    if containsSub "pattern_condition".data filename then "Threat Pattern Conditions"
    else if containsSub "instance_threat_pattern".data filename then
      "Instance Threat Pattern Evaluation"
    else "Threat Pattern Management"
  else
    ((category_map.lookup (pathStem file_path.data)).getD "Miscellaneous")

/-- The aggregate index: category label → relative path → extracted records,
modelling the Python dict-of-dicts with insertion order. -/
abbrev AggregateIndex := List (String × List (String × List FunctionRecord))

/-- `categories[category][rel_path] = functions` on one category bucket:
overwrite an existing path key in place, else append. -/
def bucketInsert (rel : String) (fns : List FunctionRecord) :
    List (String × List FunctionRecord) → List (String × List FunctionRecord)
  | [] => [(rel, fns)]
  | (r, v) :: rest =>
    if r = rel then (r, fns) :: rest else (r, v) :: bucketInsert rel fns rest

/-- Insertion into the aggregate (source lines 181-187): create the category
bucket if needed, then store the file's records under its path. -/
def indexInsert (cat : String) (rel : String) (fns : List FunctionRecord) :
    AggregateIndex → AggregateIndex
  | [] => [(cat, [(rel, fns)])]
  | (c, b) :: rest =>
    if c = cat then (c, bucketInsert rel fns b) :: rest
    else (c, b) :: indexInsert cat rel fns rest

/-- One iteration of the `os.walk` body of `scan_service_directory` (source
lines 174-187) for a file given as `(relative path, text)`: skip non-`.go`
and `_test.go` names, categorize, extract, and insert only when at least one
record was extracted. -/
def processFile (idx : AggregateIndex) (f : String × String) : AggregateIndex :=
  if endsWithL ".go".data f.1.data && !endsWithL "_test.go".data f.1.data then
    let category := categorize_service_file f.1
    let functions := extractS f.2
    if functions ≠ [] then indexInsert category f.1 functions idx else idx
  else idx

/-- `scan_service_directory` over the file set supplied by the traversal
collaborator (directory walking itself is I/O and is not modelled; the
collaborator hands over `(relative path, file text)` pairs). -/
def scan_service_directory (files : List (String × String)) : AggregateIndex :=
  files.foldl processFile []

/-- Every category bucket has at least one file entry and every file entry at
least one record. -/
def wfIndex (idx : AggregateIndex) : Prop :=
  idx.Forall fun e => e.2 ≠ [] ∧ e.2.Forall fun fe => fe.2 ≠ []

/-!  ## Checked re-execution of the extractor

The Python function can only fail by raising; for arbitrary `str` input the
only conceivable raise sites are the list subscripts `lines[j]`, `lines[k]`,
`lines[next_k]` and `lines[i]`.  The following variants re-run the scanner
with every subscript checked (`List.get?`, aborting with `none` on a miss)
and the loops driven by explicit indices exactly as in the source; the fuel
argument only bounds the iteration count (any value above `lines.length`
is never exhausted, which the equivalence theorem proves). -/

/-- Checked backward documentation scan; argument is one past the inspected
index, as in `collectDocsAux`. -/
def docsChkAux (lines : List (List Char)) : Nat → List (List Char) →
    Option (List (List Char))
  | 0, acc => some acc
  | j + 1, acc => do
    let lj ← lines.get? j
    let s := stripL lj
    if s.take 2 = ['/', '/'] then docsChkAux lines j (stripL (s.drop 2) :: acc)
    else if s = [] then docsChkAux lines j acc
    else some acc

/-- Checked forward peek from index `nk` (Python's `next_k` loop). -/
def peekChk (lines : List (List Char)) : Nat → Nat → Option Bool
  | 0, _ => none
  | fuel + 1, nk =>
    if nk < lines.length then do
      let l ← lines.get? nk
      if stripL l = [] then peekChk lines fuel (nk + 1)
      else some (decide ((stripL l).take 1 = ['\x7b']))
    else some false

/-- Checked signature scan from index `k`, candidate start `i`. -/
def sigChkAux (lines : List (List Char)) (i : Nat) : Nat → Nat → Int → Bool →
    List (List Char) → Option (List (List Char))
  | 0, _, _, _, _ => none
  | fuel + 1, k, paren, inFunc, acc =>
    if k < lines.length then do
      let lk ← lines.get? k
      let curr := stripL lk
      let inF := inFunc || decide (curr.take 5 = ['f', 'u', 'n', 'c', ' '])
      if inF then
        let acc' := rstripL lk :: acc
        let paren' := paren + (curr.count '(' : Int) - (curr.count ')' : Int)
        if curr.contains '\x7b' then some acc'.reverse
        else if paren' = 0 ∧ k > i then do
          let stop ← peekChk lines (lines.length + 1) (k + 1)
          if stop then some acc'.reverse
          else sigChkAux lines i fuel (k + 1) paren' inF acc'
        else sigChkAux lines i fuel (k + 1) paren' inF acc'
      else sigChkAux lines i fuel (k + 1) paren inF acc
    else some acc.reverse

/-- Checked outer loop of `extract_go_functions`. -/
def extractChkAux (lines : List (List Char)) : Nat → Nat → List FunctionRecord →
    Option (List FunctionRecord)
  | 0, _, _ => none
  | fuel + 1, i, acc =>
    if i < lines.length then do
      let li ← lines.get? i
      if isCandidate (stripL li) then do
        let docs ← docsChkAux lines i []
        let sigLines ← sigChkAux lines i (lines.length + 1) i 0 false []
        let full := stripL (joinSp sigLines)
        match funcNameMatch full with
        | some nm =>
          extractChkAux lines fuel (i + 1)
            (acc ++ [⟨nm, stripTrailingBrace (collapseWs full), docs, i + 1⟩])
        | none => extractChkAux lines fuel (i + 1) acc
      else extractChkAux lines fuel (i + 1) acc
    else some acc

/-- `extract_go_functions` with every subscript checked. -/
def extractChk (lines : List (List Char)) : Option (List FunctionRecord) :=
  extractChkAux lines (lines.length + 1) 0 []


/-! ## Helper lemmas about stripping and whitespace -/

theorem dropWhile_idem (p : α → Bool) (l : List α) :
    (l.dropWhile p).dropWhile p = l.dropWhile p := by
  induction l with
  | nil => rfl
  | cons c t ih =>
    by_cases h : p c = true
    · simp [List.dropWhile_cons, h, ih]
    · simp at h
      simp [List.dropWhile_cons, h]

theorem lstripL_idem (l : List Char) : lstripL (lstripL l) = lstripL l :=
  dropWhile_idem pySpace l

theorem rstripL_idem (l : List Char) : rstripL (rstripL l) = rstripL l := by
  simp [rstripL, dropWhile_idem]

theorem stripL_rstripL (l : List Char) : stripL (rstripL l) = stripL l := by
  simp [stripL, lstripL, rstripL, dropWhile_idem]

theorem rstripL_cons_of_not_space {c : Char} (hc : pySpace c = false) (v : List Char) :
    rstripL (c :: v) = c :: rstripL v := by
  simp only [rstripL, List.reverse_cons, List.dropWhile_append]
  by_cases h : (v.reverse.dropWhile pySpace).isEmpty = true
  · simp [h, List.dropWhile_cons, hc, List.isEmpty_iff.mp h]
  · simp [h]

theorem rstripL_append_of_ne_nil {b : List Char} (hb : rstripL b ≠ []) (a : List Char) :
    rstripL (a ++ b) = a ++ rstripL b := by
  have hne : (b.reverse.dropWhile pySpace).isEmpty = false := by
    rcases h : (b.reverse.dropWhile pySpace).isEmpty with _ | _
    · rfl
    · exact absurd (by simp [rstripL, List.isEmpty_iff.mp h]) hb
  simp [rstripL, List.dropWhile_append, hne]

theorem lstripL_append_of_all_space {w : List Char}
    (hw : ∀ c ∈ w, pySpace c = true) (x : List Char) :
    lstripL (w ++ x) = lstripL x := by
  have : w.dropWhile pySpace = [] := List.dropWhile_eq_nil_iff.mpr hw
  simp [lstripL, List.dropWhile_append, this]

theorem lstripL_cons_of_not_space {c : Char} (hc : pySpace c = false) (v : List Char) :
    lstripL (c :: v) = c :: v := by
  simp [lstripL, List.dropWhile_cons, hc]

theorem rstripL_eq_nil_iff {l : List Char} : rstripL l = [] ↔ ∀ c ∈ l, pySpace c = true := by
  constructor
  · intro h c hc
    have : l.reverse.dropWhile pySpace = [] := by
      have := congrArg List.reverse h
      simpa [rstripL] using this
    exact List.dropWhile_eq_nil_iff.mp this c (by simpa using hc)
  · intro h
    have hnil : l.reverse.dropWhile pySpace = [] :=
      List.dropWhile_eq_nil_iff.mpr (fun c hc => h c (by simpa using hc))
    simp [rstripL, hnil]

theorem lstripL_fixed_head {a : Char} {l : List Char}
    (h : lstripL (a :: l) = a :: l) : pySpace a = false := by
  by_contra hws
  simp only [Bool.not_eq_false] at hws
  have hlen : (lstripL l).length ≤ l.length := (List.dropWhile_sublist pySpace).length_le
  have : lstripL (a :: l) = lstripL l := by simp [lstripL, List.dropWhile_cons, hws]
  rw [this] at h
  have := congrArg List.length h
  simp at this
  omega

theorem upper_not_space {c : Char} (hc : isUpperAZ c = true) : pySpace c = false := by
  simp only [isUpperAZ, Bool.and_eq_true, decide_eq_true_eq] at hc
  obtain ⟨h1, h2⟩ := hc
  simp only [pySpace, Bool.or_eq_false_iff, decide_eq_false_iff_not]
  refine ⟨⟨⟨⟨⟨?_, ?_⟩, ?_⟩, ?_⟩, ?_⟩, ?_⟩ <;> rintro rfl <;> revert h1 <;> decide

/-! ## Lemmas about whitespace collapsing -/

theorem collapseWs_append_nonspace {c : Char} (hc : pySpace c = false) :
    ∀ u : List Char, collapseWs (u ++ [c]) = collapseWs u ++ [c]
  | [] => by simp [collapseWs, hc]
  | [a] => by
    by_cases ha : pySpace a = true
    · simp [collapseWs, ha, hc]
    · simp only [Bool.not_eq_true] at ha
      simp [collapseWs, ha, hc]
  | a :: b :: u' => by
    have ih := collapseWs_append_nonspace hc (b :: u')
    simp only [List.cons_append] at ih ⊢
    rw [collapseWs, ih]
    conv_rhs => rw [collapseWs]
    by_cases hab : (pySpace a && pySpace b) = true
    · simp [hab]
    · simp only [Bool.not_eq_true] at hab
      simp [hab]

theorem collapseWs_cons_nonspace {a : Char} (ha : pySpace a = false) (v : List Char) :
    collapseWs (a :: v) = a :: collapseWs v := by
  cases v with
  | nil => simp [collapseWs, ha]
  | cons d rest => simp [collapseWs, ha]

theorem mem_collapseWs (x : Char) : ∀ l : List Char, x ∈ collapseWs l → x = ' ' ∨ x ∈ l
  | [] => by simp [collapseWs]
  | [a] => by
    intro h
    rw [collapseWs] at h
    split at h
    · simp at h
      exact Or.inl h
    · simp at h
      exact Or.inr (by simp [h])
  | a :: d :: rest => by
    intro h
    rw [collapseWs] at h
    split at h
    · rcases mem_collapseWs x (d :: rest) h with h' | h'
      · exact Or.inl h'
      · exact Or.inr (List.mem_cons_of_mem a h')
    · rcases List.mem_cons.mp h with h' | h'
      · split at h'
        · exact Or.inl h'
        · exact Or.inr (h' ▸ List.mem_cons_self a _)
      · rcases mem_collapseWs x (d :: rest) h' with h'' | h''
        · exact Or.inl h''
        · exact Or.inr (List.mem_cons_of_mem a h'')

theorem mem_collapseWs_of_nonspace {c : Char} (hc : pySpace c = false) {l : List Char}
    (h : c ∈ collapseWs l) : c ∈ l := by
  rcases mem_collapseWs c l h with h' | h'
  · subst h'
    simp [pySpace] at hc
  · exact h'

theorem mem_of_mem_stripL {c : Char} {l : List Char} (h : c ∈ stripL l) : c ∈ l := by
  have h1 : c ∈ rstripL l := (List.dropWhile_sublist pySpace).mem h
  have h2 : c ∈ l.reverse := (List.dropWhile_sublist pySpace).mem (by simpa [rstripL] using h1)
  simpa using h2

/-! ## The name re-match always succeeds on a candidate's signature -/

theorem isCandidate_iff {s : List Char} :
    isCandidate s = true ↔
      s.take 5 = ['f', 'u', 'n', 'c', ' '] ∧
        ∃ c r, (s.drop 4).dropWhile pySpace = c :: r ∧ isUpperAZ c = true := by
  unfold isCandidate
  rcases h : (s.drop 4).dropWhile pySpace with _ | ⟨c, r⟩
  · simp [h]
  · simp only [h, Bool.and_eq_true, decide_eq_true_eq]
    constructor
    · rintro ⟨h5, hu⟩
      exact ⟨h5, c, r, rfl, hu⟩
    · rintro ⟨h5, c', r', he, hu⟩
      obtain ⟨rfl, rfl⟩ : c' = c ∧ r' = r := by
        constructor <;> [exact (List.cons_eq_cons.mp he.symm).1;
          exact (List.cons_eq_cons.mp he.symm).2]
      exact ⟨h5, hu⟩

theorem funcNameMatch_candidate {L : List Char} (u : List Char)
    (h : isCandidate (stripL L) = true) :
    ∃ c nm, funcNameMatch (stripL (rstripL L ++ u)) = some (c :: nm) ∧ isUpperAZ c = true := by
  obtain ⟨h5, c, r, hdw, hup⟩ := isCandidate_iff.mp h
  set sL := stripL L with hsL
  -- decompose the stripped line: sL = "func " ++ t
  have hsplit : sL = ['f', 'u', 'n', 'c', ' '] ++ sL.drop 5 := by
    conv_lhs => rw [← List.take_append_drop 5 sL, h5]
  set t := sL.drop 5 with ht
  -- the post-"func" part: drop 4 is the space then t
  have hdrop4 : sL.drop 4 = ' ' :: t := by rw [hsplit]; rfl
  have hdwt : t.dropWhile pySpace = c :: r := by
    have : (' ' :: t).dropWhile pySpace = t.dropWhile pySpace := by
      simp [List.dropWhile_cons, pySpace]
    rw [hdrop4, this] at hdw
    exact hdw
  set wt := t.takeWhile pySpace with hwt
  have htdec : t = wt ++ c :: r := by
    conv_lhs => rw [← List.takeWhile_append_dropWhile (p := pySpace) (l := t), hdwt]
  have hwtws : ∀ x ∈ wt, pySpace x = true := fun x hx => List.mem_takeWhile_imp hx
  have hcns : pySpace c = false := upper_not_space hup
  -- rstripL L = leading whitespace ++ sL
  set w := (rstripL L).takeWhile pySpace with hw
  have hLdec : rstripL L = w ++ sL := by
    have hds : (rstripL L).dropWhile pySpace = sL := rfl
    conv_lhs => rw [← List.takeWhile_append_dropWhile (p := pySpace) (l := rstripL L)]
    rw [hds]
  have hwws : ∀ x ∈ w, pySpace x = true := fun x hx => List.mem_takeWhile_imp hx
  -- push rstripL through the appends
  have e1 : rstripL (c :: (r ++ u)) = c :: rstripL (r ++ u) :=
    rstripL_cons_of_not_space hcns (r ++ u)
  have e2 : rstripL (wt ++ (c :: (r ++ u))) = wt ++ (c :: rstripL (r ++ u)) := by
    rw [rstripL_append_of_ne_nil (by rw [e1]; exact List.cons_ne_nil _ _) wt, e1]
  have e3 : rstripL (sL ++ u) = ['f', 'u', 'n', 'c', ' '] ++ (wt ++ (c :: rstripL (r ++ u))) := by
    have : sL ++ u = ['f', 'u', 'n', 'c', ' '] ++ (wt ++ (c :: (r ++ u))) := by
      conv_lhs => rw [hsplit, htdec]
      simp
    rw [this, rstripL_append_of_ne_nil (by rw [e2]; simp) _, e2]
  have e4 : rstripL (rstripL L ++ u) = w ++ rstripL (sL ++ u) := by
    conv_lhs => rw [hLdec, List.append_assoc]
    exact rstripL_append_of_ne_nil (by rw [e3]; simp) w
  have e5 : stripL (rstripL L ++ u) =
      ['f', 'u', 'n', 'c', ' '] ++ (wt ++ (c :: rstripL (r ++ u))) := by
    rw [stripL, e4, lstripL_append_of_all_space hwws, e3]
    simp only [List.cons_append, List.nil_append]
    rw [lstripL_cons_of_not_space (by decide)]
  -- evaluate funcNameMatch on the decomposed string
  rw [e5]
  refine ⟨c, (rstripL (r ++ u)).takeWhile isAlnumAZ, ?_, hup⟩
  have htake : (['f', 'u', 'n', 'c', ' '] ++ (wt ++ (c :: rstripL (r ++ u)))).take 4 =
      ['f', 'u', 'n', 'c'] := rfl
  have hdrop : (['f', 'u', 'n', 'c', ' '] ++ (wt ++ (c :: rstripL (r ++ u)))).drop 4 =
      ' ' :: (wt ++ (c :: rstripL (r ++ u))) := rfl
  rw [funcNameMatch, if_pos htake, hdrop]
  have htw : (' ' :: (wt ++ (c :: rstripL (r ++ u)))).takeWhile pySpace ≠ [] := by
    simp [List.takeWhile_cons, pySpace]
  rw [if_neg (by simpa using htw)]
  have hdw2 : (' ' :: (wt ++ (c :: rstripL (r ++ u)))).dropWhile pySpace =
      c :: rstripL (r ++ u) := by
    rw [List.dropWhile_cons]
    simp only [show pySpace ' ' = true by decide, if_true]
    rw [List.dropWhile_append, List.dropWhile_eq_nil_iff.mpr hwtws]
    simp [List.dropWhile_cons, hcns]
  rw [hdw2]
  simp [hup]

/-! ## The signature scan and candidate emission -/

theorem sigScan_acc : ∀ (ls : List (List Char)) (p : Int) (f b : Bool) (acc : List (List Char)),
    ∃ ext, sigScan ls p f b acc = acc.reverse ++ ext
  | [], p, f, b, acc => ⟨[], by simp [sigScan]⟩
  | l :: rest, p, f, b, acc => by
    rw [sigScan]
    by_cases hF : (f || decide ((stripL l).take 5 = ['f', 'u', 'n', 'c', ' '])) = true
    · rw [if_pos hF]
      by_cases hbr : (stripL l).contains '\x7b' = true
      · exact ⟨[rstripL l], by rw [if_pos hbr]; simp⟩
      · rw [if_neg hbr]
        by_cases hpk : (p + ((stripL l).count '(' : Int) - ((stripL l).count ')' : Int) = 0 ∧
            b = false)
        · rw [if_pos hpk]
          by_cases hpv : peekPure rest = true
          · exact ⟨[rstripL l], by rw [if_pos hpv]; simp⟩
          · rw [if_neg (by simp [hpv])]
            obtain ⟨ext, he⟩ := sigScan_acc rest _ _ false (rstripL l :: acc)
            exact ⟨[rstripL l] ++ ext, by rw [he]; simp⟩
        · rw [if_neg hpk]
          obtain ⟨ext, he⟩ := sigScan_acc rest _ _ false (rstripL l :: acc)
          exact ⟨[rstripL l] ++ ext, by rw [he]; simp⟩
    · rw [if_neg hF]
      exact sigScan_acc rest p _ false acc

theorem sigScan_candidate {L : List Char} (rest : List (List Char))
    (h : (stripL L).take 5 = ['f', 'u', 'n', 'c', ' ']) :
    ∃ ext, sigScan (L :: rest) 0 false true [] = rstripL L :: ext := by
  rw [sigScan]
  rw [if_pos (by simp [h])]
  by_cases hbr : (stripL L).contains '\x7b' = true
  · exact ⟨[], by rw [if_pos hbr]; simp⟩
  · rw [if_neg hbr, if_neg (by simp)]
    obtain ⟨ext, he⟩ := sigScan_acc rest _ _ false [rstripL L]
    exact ⟨ext, by rw [he]; simp⟩

theorem joinSp_cons (x : List Char) (ls : List (List Char)) :
    ∃ u, joinSp (x :: ls) = x ++ u := by
  cases ls with
  | nil => exact ⟨[], rfl⟩
  | cons y ys => exact ⟨_, rfl⟩

/-- Every candidate line gives rise to a record: the name pattern re-matches
on the reconstructed signature whatever the rest of the file looks like, the
record carries the backward-scanned documentation and the 1-based line
number, and it is returned by the extractor. -/
theorem candidate_emits (lines : List (List Char)) (i : Nat) (h : i < lines.length)
    (hc : isCandidate (stripL (lines.getD i [])) = true) :
    ∃ r, processCandidate lines i = some r ∧ r ∈ extractLines lines ∧
      r.documentation = collectDocsAux lines i [] ∧ r.lineNumber = i + 1 ∧
      ∃ c t, r.name = c :: t ∧ isUpperAZ c = true := by
  have hgd : lines.getD i [] = lines[i] := List.getD_eq_getElem lines [] h
  have hdrop : lines.drop i = lines[i] :: lines.drop (i + 1) := List.drop_eq_getElem_cons h
  rw [hgd] at hc
  obtain ⟨ext, hsig⟩ := sigScan_candidate (lines.drop (i + 1))
    ((isCandidate_iff.mp hc).1)
  obtain ⟨u, hjoin⟩ := joinSp_cons (rstripL lines[i]) ext
  obtain ⟨c, nm, hnm, hup⟩ := funcNameMatch_candidate u hc
  have hfull : stripL (joinSp (sigScan (lines.drop i) 0 false true [])) =
      stripL (rstripL lines[i] ++ u) := by rw [hdrop, hsig, hjoin]
  have hproc : processCandidate lines i =
      some ⟨c :: nm,
        stripTrailingBrace (collapseWs (stripL (rstripL lines[i] ++ u))),
        collectDocsAux lines i [], i + 1⟩ := by
    rw [processCandidate, hfull, hnm]
  refine ⟨_, hproc, ?_, rfl, rfl, c, nm, rfl, hup⟩
  rw [extractLines]
  rw [List.mem_filterMap]
  refine ⟨i, by simp [h], ?_⟩
  rw [hgd, if_pos hc, hproc]

theorem emit_some_facts {lines : List (List Char)} {i : Nat} {r : FunctionRecord}
    (h : (if isCandidate (stripL (lines.getD i [])) = true then processCandidate lines i
          else none) = some r) :
    r.lineNumber = i + 1 ∧ isCandidate (stripL (lines.getD i [])) = true := by
  by_cases hc : isCandidate (stripL (lines.getD i [])) = true
  · rw [if_pos hc] at h
    refine ⟨?_, hc⟩
    rw [processCandidate] at h
    split at h
    · cases h
      rfl
    · cases h
  · rw [if_neg hc] at h
    cases h

theorem funcNameMatch_some_shape {s nm : List Char} (h : funcNameMatch s = some nm) :
    ∃ c t, nm = c :: t ∧ isUpperAZ c = true := by
  simp only [funcNameMatch] at h
  split at h
  · split at h
    · cases h
    · split at h
      · split at h
        · cases h
          exact ⟨_, _, rfl, by assumption⟩
        · cases h
      · cases h
  · cases h

theorem processCandidate_name {lines : List (List Char)} {i : Nat} {r : FunctionRecord}
    (h : processCandidate lines i = some r) :
    ∃ c t, r.name = c :: t ∧ isUpperAZ c = true := by
  rw [processCandidate] at h
  split at h
  · cases h
    exact funcNameMatch_some_shape (by assumption)
  · cases h

/-- C1 (amended): for every candidate declaration line — in particular one
whose parenthesis depth never returns to zero before end-of-file, where the
forward scan falls through at end-of-file — the extractor still emits a
FunctionRecord for that candidate (the name pattern always re-matches on the
reconstructed signature), and the situation is never surfaced as an error. -/
theorem C1_candidate_always_emits (lines : List (List Char)) (i : Nat)
    (h : i < lines.length) (hc : isCandidate (stripL (lines.getD i [])) = true) :
    ∃ r, processCandidate lines i = some r ∧ r ∈ extractLines lines ∧
      r.lineNumber = i + 1 := by
  obtain ⟨r, h1, h2, _, h4, _⟩ := candidate_emits lines i h hc
  exact ⟨r, h1, h2, h4⟩

theorem C1_candidate_always_emits_witness :
    0 < (splitOnChar '\n' "func Foo(x int,".data).length ∧
      ∃ r, processCandidate (splitOnChar '\n' "func Foo(x int,".data) 0 = some r ∧
        r ∈ extractLines (splitOnChar '\n' "func Foo(x int,".data) ∧ r.lineNumber = 0 + 1 :=
  ⟨by decide, C1_candidate_always_emits (splitOnChar '\n' "func Foo(x int,".data) 0
    (by decide) (by decide)⟩

/-- C1 (counterexample): the single-line file `func Foo(a int,` — a candidate
whose parameter list never returns to depth zero before end-of-file — yields
one FunctionRecord rather than none: the fall-through at end-of-file still
emits, with the signature covering everything to end-of-file. -/
theorem C1_counterexample :
    extractS "func Foo(a int," = [⟨"Foo".data, "func Foo(a int,".data, [], 1⟩] ∧
      extractS "func Foo(a int," ≠ [] := by decide

/-- C3: the two-line file `// Returns the user by ID.` / `func GetUser(id int)
(*User, error) \x7b` yields exactly one record with name `GetUser`, the
brace-free normalized signature, the one-line documentation, and line 2. -/
theorem C3_getuser_scenario :
    extractS "// Returns the user by ID.\nfunc GetUser(id int) (*User, error) \x7b" =
      [⟨"GetUser".data, "func GetUser(id int) (*User, error)".data,
        ["Returns the user by ID.".data], 2⟩] := by decide

/-- C4: every record emitted by the extractor has a name starting with an
uppercase letter, and the lowercase declaration `func getUser(id int) \x7b`
yields no record. -/
theorem C4_names_uppercase :
    (∀ lines : List (List Char), (extractLines lines).Forall fun r =>
      ∃ c t, r.name = c :: t ∧ isUpperAZ c = true) ∧
      extractS "func getUser(id int) \x7b" = [] := by
  constructor
  · intro lines
    rw [List.forall_iff_forall_mem]
    intro r hr
    rw [extractLines, List.mem_filterMap] at hr
    obtain ⟨i, _, hf⟩ := hr
    by_cases hc : isCandidate (stripL (lines.getD i [])) = true
    · rw [if_pos hc] at hf
      exact processCandidate_name hf
    · rw [if_neg hc] at hf
      cases hf
  · decide

/-- C9: the records come out in source order — their line numbers are
strictly increasing (hence at most one record per declaration start line),
and each record points back to a candidate declaration line of the file via
its 1-based line number. -/
theorem C9_source_order (lines : List (List Char)) :
    List.Pairwise (fun a b => a.lineNumber < b.lineNumber) (extractLines lines) ∧
      (extractLines lines).Forall fun r =>
        1 ≤ r.lineNumber ∧ r.lineNumber ≤ lines.length ∧
          isCandidate (stripL (lines.getD (r.lineNumber - 1) [])) = true := by
  constructor
  · rw [extractLines, List.pairwise_filterMap]
    refine (List.pairwise_lt_range lines.length).imp ?_
    intro a b hab x hx y hy
    have ha := (emit_some_facts (Option.mem_def.mp hx)).1
    have hb := (emit_some_facts (Option.mem_def.mp hy)).1
    omega
  · rw [List.forall_iff_forall_mem]
    intro r hr
    rw [extractLines, List.mem_filterMap] at hr
    obtain ⟨i, hi, hf⟩ := hr
    obtain ⟨hln, hc⟩ := emit_some_facts hf
    have hilt : i < lines.length := List.mem_range.mp hi
    refine ⟨by omega, by omega, ?_⟩
    have : r.lineNumber - 1 = i := by omega
    rw [this]
    exact hc

/-! ## Specification of the backward documentation scan -/

/-- The backward documentation scan expressed structurally on the reversed
prefix above the candidate line (innermost line first). -/
def docsSpecRev : List (List Char) → List (List Char) → List (List Char)
  | [], acc => acc
  | l :: rest, acc =>
    let s := stripL l
    if s.take 2 = ['/', '/'] then docsSpecRev rest (stripL (s.drop 2) :: acc)
    else if s = [] then docsSpecRev rest acc
    else acc

theorem collectDocsAux_eq_spec (lines : List (List Char)) :
    ∀ j acc, j ≤ lines.length →
      collectDocsAux lines j acc = docsSpecRev ((lines.take j).reverse) acc
  | 0, acc, _ => rfl
  | j + 1, acc, h => by
    have hj : j < lines.length := Nat.lt_of_succ_le h
    have htake : (lines.take (j + 1)).reverse = lines[j] :: (lines.take j).reverse := by
      rw [List.take_succ, List.getElem?_eq_getElem hj]
      simp
    have hgd : lines.getD j [] = lines[j] := List.getD_eq_getElem lines [] hj
    rw [htake, collectDocsAux, docsSpecRev, hgd]
    by_cases h1 : (stripL lines[j]).take 2 = ['/', '/']
    · rw [if_pos h1, if_pos h1, collectDocsAux_eq_spec lines j _ (Nat.le_of_lt hj)]
    · rw [if_neg h1, if_neg h1]
      by_cases h2 : stripL lines[j] = []
      · rw [if_pos h2, if_pos h2, collectDocsAux_eq_spec lines j _ (Nat.le_of_lt hj)]
      · rw [if_neg h2, if_neg h2]

theorem docsSpecRev_blanks {bl : List (List Char)} (h : ∀ l ∈ bl, stripL l = []) :
    ∀ z acc, docsSpecRev (bl ++ z) acc = docsSpecRev z acc := by
  induction bl with
  | nil => intro z acc; rfl
  | cons l rest ih =>
    intro z acc
    have hl : stripL l = [] := h l (List.mem_cons_self l rest)
    have : ∀ m ∈ rest, stripL m = [] := fun m hm => h m (List.mem_cons_of_mem l hm)
    rw [List.cons_append, docsSpecRev]
    rw [if_neg (by rw [hl]; simp), if_pos hl]
    exact ih this z acc

theorem docsSpecRev_comments {cm : List (List Char)}
    (h : ∀ l ∈ cm, (stripL l).take 2 = ['/', '/']) :
    ∀ z acc, docsSpecRev (cm.reverse ++ z) acc =
      docsSpecRev z ((cm.map fun l => stripL ((stripL l).drop 2)) ++ acc) := by
  induction cm with
  | nil => intro z acc; rfl
  | cons l rest ih =>
    intro z acc
    have hl : (stripL l).take 2 = ['/', '/'] := h l (List.mem_cons_self l rest)
    have hrest : ∀ m ∈ rest, (stripL m).take 2 = ['/', '/'] :=
      fun m hm => h m (List.mem_cons_of_mem l hm)
    rw [List.reverse_cons, List.append_assoc, ih hrest]
    rw [List.singleton_append, docsSpecRev, if_pos hl]
    simp

theorem docsSpecRev_stop {l : List Char} (h1 : (stripL l).take 2 ≠ ['/', '/'])
    (h2 : stripL l ≠ []) (z : List (List Char)) (acc : List (List Char)) :
    docsSpecRev (l :: z) acc = acc := by
  rw [docsSpecRev, if_neg h1, if_neg h2]

/-- C5: a comment block separated from the candidate declaration by one or
more blank lines (and preceded either by the top of file or by a line that is
neither comment nor blank) is still attached as the record's documentation,
top-to-bottom, each line with its `//` marker stripped and trimmed. -/
theorem C5_docs_cross_blank_lines (pre comments blanks : List (List Char))
    (declLine : List Char) (rest : List (List Char))
    (hcm : ∀ l ∈ comments, (stripL l).take 2 = ['/', '/'])
    (hbl : ∀ l ∈ blanks, stripL l = [])
    (hbl0 : blanks ≠ [])
    (hpre : pre = [] ∨ ∃ p' lastL, pre = p' ++ [lastL] ∧
      (stripL lastL).take 2 ≠ ['/', '/'] ∧ stripL lastL ≠ [])
    (hc : isCandidate (stripL declLine) = true) :
    ∃ r, processCandidate (pre ++ comments ++ blanks ++ declLine :: rest)
        (pre.length + comments.length + blanks.length) = some r ∧
      r ∈ extractLines (pre ++ comments ++ blanks ++ declLine :: rest) ∧
      r.documentation = comments.map fun l => stripL ((stripL l).drop 2) := by
  set A := pre ++ comments ++ blanks with hA
  set lines := A ++ declLine :: rest with hlines
  set i := pre.length + comments.length + blanks.length with hi
  have hAlen : A.length = i := by
    simp only [hA, hi, List.length_append]
  have hilt : i < lines.length := by
    simp only [hlines, List.length_append, hAlen, List.length_cons]
    omega
  have hgd : lines.getD i [] = declLine := by
    rw [List.getD_eq_getElem lines [] hilt]
    have : lines[i]? = some declLine := by
      rw [hlines, List.getElem?_append_right (by omega), hAlen]
      simp
    rw [List.getElem?_eq_getElem hilt] at this
    exact Option.some_injective _ this
  have hdocs : collectDocsAux lines i [] = comments.map fun l => stripL ((stripL l).drop 2) := by
    rw [collectDocsAux_eq_spec lines i [] (Nat.le_of_lt hilt)]
    have htk : lines.take i = A := by
      rw [hlines, List.take_left' hAlen]
    rw [htk, hA]
    have hrev : (pre ++ comments ++ blanks).reverse =
        blanks.reverse ++ (comments.reverse ++ pre.reverse) := by
      simp [List.reverse_append, List.append_assoc]
    rw [hrev]
    rw [docsSpecRev_blanks (fun l hl => hbl l (by simpa using hl))]
    rw [docsSpecRev_comments hcm]
    rcases hpre with hpe | ⟨p', lastL, hpe, hnc, hnb⟩
    · simp [hpe, docsSpecRev]
    · rw [hpe]
      simp only [List.reverse_append, List.reverse_singleton, List.singleton_append]
      rw [docsSpecRev_stop hnc hnb]
      simp
  obtain ⟨r, h1, h2, h3, _, _⟩ := candidate_emits lines i hilt (by rw [hgd]; exact hc)
  exact ⟨r, h1, h2, by rw [h3, hdocs]⟩

theorem C5_docs_cross_blank_lines_witness :
    ∃ r, processCandidate (splitOnChar '\n' "// doc line\n\nfunc Foo() \x7b".data) 2 = some r ∧
      r ∈ extractLines (splitOnChar '\n' "// doc line\n\nfunc Foo() \x7b".data) ∧
      r.documentation = ["doc line".data] := by
  have h := C5_docs_cross_blank_lines [] ["// doc line".data] [[]]
    "func Foo() \x7b".data [] (by decide) (by decide) (by decide) (Or.inl rfl) (by decide)
  simpa using h

/-! ## Single-line signatures -/

theorem joinSp_single (x : List Char) : joinSp [x] = x := by
  simp [joinSp, List.intercalate]

theorem sigScan_brace {L : List Char} (rest : List (List Char))
    (h5 : (stripL L).take 5 = ['f', 'u', 'n', 'c', ' '])
    (hbr : (stripL L).contains '\x7b' = true) :
    sigScan (L :: rest) 0 false true [] = [rstripL L] := by
  rw [sigScan, if_pos (by simp [h5]), if_pos hbr]
  rfl

theorem stripTrailingBrace_append_brace (X : List Char) :
    stripTrailingBrace (X ++ ['\x7b']) = rstripL X := by
  have h1 : (X ++ ['\x7b']).reverse.dropWhile pySpace = '\x7b' :: X.reverse := by
    simp [List.reverse_append, List.dropWhile_cons, show pySpace '\x7b' = false from rfl]
  rw [stripTrailingBrace, h1]
  rfl

/-- C2 (amended): for a candidate declaration contained on a single line that
ends with the opening body brace, the emitted record's signature equals the
declaration text up to (and excluding) that final brace, whitespace
normalized; and it contains no `\x7b` provided the final body brace is the
only `\x7b` on the line. -/
theorem C2_single_line_signature (lines : List (List Char)) (i : Nat)
    (h : i < lines.length)
    (hc : isCandidate (stripL (lines.getD i [])) = true)
    (hbr : (stripL (lines.getD i [])).getLast? = some '\x7b') :
    ∃ r, processCandidate lines i = some r ∧ r ∈ extractLines lines ∧
      r.signature = stripL (collapseWs ((stripL (lines.getD i [])).dropLast)) ∧
      ('\x7b' ∉ (stripL (lines.getD i [])).dropLast → '\x7b' ∉ r.signature) := by
  have hgd : lines.getD i [] = lines[i] := List.getD_eq_getElem lines [] h
  rw [hgd] at hc hbr ⊢
  obtain ⟨u, hu⟩ := List.getLast?_eq_some_iff.mp hbr
  have hmem : '\x7b' ∈ stripL lines[i] := List.mem_of_getLast?_eq_some hbr
  have hcont : (stripL lines[i]).contains '\x7b' = true := by
    simpa [List.contains] using hmem
  have hsig : sigScan (lines.drop i) 0 false true [] = [rstripL lines[i]] := by
    rw [List.drop_eq_getElem_cons h]
    exact sigScan_brace _ (isCandidate_iff.mp hc).1 hcont
  obtain ⟨c, nm, hnm, _⟩ := funcNameMatch_candidate [] hc
  rw [List.append_nil, stripL_rstripL] at hnm
  have hproc : processCandidate lines i =
      some ⟨c :: nm, stripTrailingBrace (collapseWs (stripL lines[i])),
        collectDocsAux lines i [], i + 1⟩ := by
    rw [processCandidate, hsig, joinSp_single, stripL_rstripL, hnm]
  -- the left end of the stripped line is already stripped
  have hlT : lstripL (stripL lines[i]) = stripL lines[i] := lstripL_idem _
  -- compute the emitted signature
  have hdl : (stripL lines[i]).dropLast = u := by rw [hu, List.dropLast_concat]
  have hsigeq : stripTrailingBrace (collapseWs (stripL lines[i])) =
      stripL (collapseWs u) := by
    rw [hu, collapseWs_append_nonspace (by decide) u, stripTrailingBrace_append_brace]
    cases u with
    | nil => rfl
    | cons t0 u'' =>
      have ht0 : pySpace t0 = false := by
        rw [hu] at hlT
        simpa using lstripL_fixed_head (by simpa [List.cons_append] using hlT)
      rw [collapseWs_cons_nonspace ht0, rstripL_cons_of_not_space ht0, stripL,
        rstripL_cons_of_not_space ht0, lstripL_cons_of_not_space ht0]
  refine ⟨_, hproc, ?_, ?_, ?_⟩
  · rw [extractLines, List.mem_filterMap]
    exact ⟨i, by simp [h], by rw [hgd, if_pos hc, hproc]⟩
  · rw [hdl]
    exact hsigeq
  · rw [hdl]
    intro hnotin hin
    rw [hsigeq] at hin
    exact hnotin (mem_collapseWs_of_nonspace (by decide) (mem_of_mem_stripL hin))

theorem C2_single_line_signature_witness :
    0 < (splitOnChar '\n' "func Bar(x int) \x7b".data).length ∧
      ∃ r, processCandidate (splitOnChar '\n' "func Bar(x int) \x7b".data) 0 = some r ∧
        r ∈ extractLines (splitOnChar '\n' "func Bar(x int) \x7b".data) ∧
        r.signature = stripL (collapseWs
          ((stripL ((splitOnChar '\n' "func Bar(x int) \x7b".data).getD 0 [])).dropLast)) ∧
        ('\x7b' ∉ (stripL ((splitOnChar '\n' "func Bar(x int) \x7b".data).getD 0 [])).dropLast →
          '\x7b' ∉ r.signature) :=
  ⟨by decide, C2_single_line_signature (splitOnChar '\n' "func Bar(x int) \x7b".data) 0
    (by decide) (by decide) (by decide)⟩

/-- C2 (counterexample): `func Foo(a struct\x7b\x7d) \x7b` is a declaration
whose parameter list sits on a single line ending with the opening body
brace, yet the emitted signature still contains a `\x7b` (the one inside the
parameter type), refuting the claim that such signatures never contain one. -/
theorem C2_counterexample :
    (extractS "func Foo(a struct\x7b\x7d) \x7b").map FunctionRecord.signature =
      ["func Foo(a struct\x7b\x7d)".data] ∧
      '\x7b' ∈ "func Foo(a struct\x7b\x7d)".data := by decide


/-! ## Aggregation invariants -/

theorem wfIndex_iff {idx : AggregateIndex} :
    wfIndex idx ↔ ∀ e ∈ idx, e.2 ≠ [] ∧ ∀ fe ∈ e.2, fe.2 ≠ [] := by
  rw [wfIndex, List.forall_iff_forall_mem]
  exact forall_congr' fun e => imp_congr Iff.rfl
    (and_congr Iff.rfl List.forall_iff_forall_mem)

theorem bucketInsert_mem (rel : String) (fns : List FunctionRecord) :
    ∀ (b : List (String × List FunctionRecord)) (fe : String × List FunctionRecord),
      fe ∈ bucketInsert rel fns b → fe.2 = fns ∨ fe ∈ b
  | [], fe, h => by
    simp only [bucketInsert, List.mem_singleton] at h
    exact Or.inl (by rw [h])
  | e :: rest, fe, h => by
    rw [bucketInsert] at h
    by_cases hr : e.1 = rel
    · rw [if_pos hr] at h
      rcases List.mem_cons.mp h with h' | h'
      · exact Or.inl (by rw [h'])
      · exact Or.inr (List.mem_cons_of_mem e h')
    · rw [if_neg hr] at h
      rcases List.mem_cons.mp h with h' | h'
      · exact Or.inr (h' ▸ List.mem_cons_self e rest)
      · rcases bucketInsert_mem rel fns rest fe h' with h'' | h''
        · exact Or.inl h''
        · exact Or.inr (List.mem_cons_of_mem e h'')

theorem bucketInsert_ne_nil (rel : String) (fns : List FunctionRecord)
    (b : List (String × List FunctionRecord)) : bucketInsert rel fns b ≠ [] := by
  cases b with
  | nil => simp [bucketInsert]
  | cons e rest =>
    rw [bucketInsert]
    by_cases hr : e.1 = rel
    · rw [if_pos hr]
      simp
    · rw [if_neg hr]
      simp

theorem indexInsert_wf (cat rel : String) {fns : List FunctionRecord} (hf : fns ≠ []) :
    ∀ idx : AggregateIndex, (∀ e ∈ idx, e.2 ≠ [] ∧ ∀ fe ∈ e.2, fe.2 ≠ []) →
      ∀ e ∈ indexInsert cat rel fns idx, e.2 ≠ [] ∧ ∀ fe ∈ e.2, fe.2 ≠ []
  | [], _, e, he => by
    simp only [indexInsert, List.mem_singleton] at he
    subst he
    refine ⟨by simp, ?_⟩
    intro fe hfe
    simp only [List.mem_singleton] at hfe
    subst hfe
    exact hf
  | e0 :: rest, hw, e, he => by
    rw [indexInsert] at he
    by_cases hc : e0.1 = cat
    · rw [if_pos hc] at he
      rcases List.mem_cons.mp he with h' | h'
      · subst h'
        refine ⟨bucketInsert_ne_nil rel fns e0.2, ?_⟩
        intro fe hfe
        rcases bucketInsert_mem rel fns e0.2 fe hfe with h'' | h''
        · rw [h'']
          exact hf
        · exact (hw e0 (List.mem_cons_self e0 rest)).2 fe h''
      · exact hw e (List.mem_cons_of_mem e0 h')
    · rw [if_neg hc] at he
      rcases List.mem_cons.mp he with h' | h'
      · exact h' ▸ hw e0 (List.mem_cons_self e0 rest)
      · exact indexInsert_wf cat rel hf rest
          (fun x hx => hw x (List.mem_cons_of_mem e0 hx)) e h'

theorem processFile_wf {idx : AggregateIndex} (hw : wfIndex idx) (f : String × String) :
    wfIndex (processFile idx f) := by
  rw [wfIndex_iff] at hw ⊢
  rw [processFile]
  by_cases h1 : (endsWithL ".go".data f.1.data && !endsWithL "_test.go".data f.1.data) = true
  · rw [if_pos h1]
    by_cases h2 : extractS f.2 ≠ []
    · rw [if_pos h2]
      exact indexInsert_wf _ _ h2 idx hw
    · rw [if_neg h2]
      exact hw
  · rw [if_neg h1]
    exact hw

/-- C6: a file whose extraction yields zero records changes nothing in the
aggregate — no file entry, no category bucket — and consequently every
category bucket of the final index holds at least one file entry, each with
at least one record. -/
theorem C6_empty_files_contribute_nothing :
    (∀ (idx : AggregateIndex) (path content : String), extractS content = [] →
        processFile idx (path, content) = idx) ∧
      ∀ files : List (String × String), wfIndex (scan_service_directory files) := by
  constructor
  · intro idx path content hempty
    rw [processFile]
    by_cases h1 : (endsWithL ".go".data path.data && !endsWithL "_test.go".data path.data) = true
    · rw [if_pos h1]
      simp only [hempty]
      rw [if_neg (by simp)]
    · rw [if_neg h1]
  · intro files
    rw [scan_service_directory]
    have main : ∀ (fs : List (String × String)) (idx : AggregateIndex), wfIndex idx →
        wfIndex (fs.foldl processFile idx) := by
      intro fs
      induction fs with
      | nil => intro idx h; exact h
      | cons f rest ih =>
        intro idx h
        exact ih _ (processFile_wf h f)
    exact main files [] trivial

theorem C6_empty_files_contribute_nothing_witness :
    extractS "package service" = [] ∧
      processFile [("Control Management", [("x.go", [])])] ("a.go", "package service") =
        [("Control Management", [("x.go", [])])] :=
  ⟨by decide, C6_empty_files_contribute_nothing.1 _ "a.go" "package service" (by decide)⟩

/-! ## Categorization -/

/-- The twelve category labels the categorizer can produce. -/
def serviceCategoryLabels : List String :=
  ["Threat Pattern Conditions", "Instance Threat Pattern Evaluation",
   "Threat Pattern Management", "Control Management", "Domain Management",
   "Instance Management", "Product Management", "Threat Management",
   "Relationship Management", "Tag Management", "Threat Resolution Management",
   "Miscellaneous"]

theorem lookup_value_cases {n : List Char} {v : String}
    (h : category_map.lookup n = some v) :
    v = "Control Management" ∨ v = "Domain Management" ∨ v = "Instance Management" ∨
      v = "Product Management" ∨ v = "Threat Management" ∨ v = "Relationship Management" ∨
      v = "Tag Management" ∨ v = "Threat Resolution Management" := by
  obtain ⟨l1, l2, hdec, _⟩ := List.lookup_eq_some_iff.mp h
  have hm : (n, v) ∈ category_map := by
    rw [hdec]
    exact List.mem_append_right _ (List.mem_cons_self _ _)
  simp only [category_map, List.mem_cons, List.mem_singleton, Prod.mk.injEq,
    List.not_mem_nil, or_false] at hm
  rcases hm with ⟨_, rfl⟩ | ⟨_, rfl⟩ | ⟨_, rfl⟩ | ⟨_, rfl⟩ | ⟨_, rfl⟩ | ⟨_, rfl⟩ |
    ⟨_, rfl⟩ | ⟨_, rfl⟩ <;> simp

theorem categorize_subarea_cases {p : String}
    (h : "threat_pattern".data ∈ pathParts p.data) :
    categorize_service_file p = "Threat Pattern Conditions" ∨
      categorize_service_file p = "Instance Threat Pattern Evaluation" ∨
      categorize_service_file p = "Threat Pattern Management" := by
  rw [categorize_service_file, if_pos h]
  dsimp only
  split_ifs <;> simp

/-- C10: categorize always returns one of the twelve fixed labels. -/
theorem C10_labels_closed (p : String) :
    categorize_service_file p ∈ serviceCategoryLabels := by
  by_cases hs : "threat_pattern".data ∈ pathParts p.data
  · rcases categorize_subarea_cases hs with h | h | h <;> rw [h] <;> decide
  · rw [categorize_service_file, if_neg hs]
    cases h : category_map.lookup (pathStem p.data) with
    | none => decide
    | some v =>
      simp only [Option.getD_some]
      rcases lookup_value_cases h with rfl | rfl | rfl | rfl | rfl | rfl | rfl | rfl <;> decide

/-- The sub-area test of the specification: some path segment equals
`threat_pattern`. -/
def inSubArea (p : String) : Bool := decide ("threat_pattern".data ∈ pathParts p.data)

/-- Stem-substring matcher of the specification. -/
def stemHas (sub : String) (p : String) : Bool := containsSub sub.data (pathStem p.data)

/-- Base-name (stem) equality matcher of the specification. -/
def stemIs (s : String) (p : String) : Bool := pathStem p.data == s.data

/-- Modelled from the spec (§4.2 and the design note of §9): the
categorization policy as an ordered list of (matcher, label) rules evaluated
top to bottom — the sub-area stem-substring rules first, then the fixed
base-name table, with `Miscellaneous` as the fallback when no rule matches.
Following the correction to the claim, the sub-area has two recognized stem
substrings rather than three. -/
def specRules : List ((String → Bool) × String) :=
  [(fun p => inSubArea p && stemHas "pattern_condition" p, "Threat Pattern Conditions"),
   (fun p => inSubArea p && stemHas "instance_threat_pattern" p,
     "Instance Threat Pattern Evaluation"),
   (fun p => inSubArea p, "Threat Pattern Management"),
   (stemIs "control", "Control Management"),
   (stemIs "domain", "Domain Management"),
   (stemIs "instance", "Instance Management"),
   (stemIs "product", "Product Management"),
   (stemIs "threat", "Threat Management"),
   (stemIs "relationship", "Relationship Management"),
   (stemIs "tag", "Tag Management"),
   (stemIs "threat_resolution", "Threat Resolution Management")]

/-- First matching rule wins; no rule means the universal fallback. -/
def firstLabel : List ((String → Bool) × String) → String → String
  | [], _ => "Miscellaneous"
  | r :: rest, p => if r.1 p then r.2 else firstLabel rest p

/-- The categorizer as the specification words it. -/
def categorizeSpec (p : String) : String := firstLabel specRules p

/-- C7 (amended): categorize evaluates its rules in order — sub-area
stem-substring matching first (two recognized stem substrings mapping to two
labels, anything else in the sub-area to its catch-all label), then the fixed
base-name table, then the universal fallback `Miscellaneous`; this is the
rule list `specRules` evaluated top to bottom. -/
theorem C7_rule_order (p : String) : categorize_service_file p = categorizeSpec p := by
  rw [categorizeSpec, specRules]
  simp only [firstLabel]
  rw [categorize_service_file]
  by_cases hs : "threat_pattern".data ∈ pathParts p.data
  · have hsb : inSubArea p = true := by simp [inSubArea, hs]
    rw [if_pos hs]
    simp only [hsb, Bool.true_and, if_true]
    rfl
  · have hsb : inSubArea p = false := by simp [inSubArea, hs]
    rw [if_neg hs]
    simp only [hsb, Bool.false_and, Bool.false_eq_true, if_false]
    simp only [stemIs, category_map, List.lookup_cons, List.lookup_nil]
    repeat' split <;> simp_all

/-- C7 (counterexample): the claim's sub-area rule — three recognized stem
substrings mapping to three labels plus a distinct catch-all — is refuted:
it would make four pairwise-distinct labels reachable for sub-area paths,
while `categorize_service_file` only ever produces three there
(`Threat Pattern Conditions`, `Instance Threat Pattern Evaluation`,
`Threat Pattern Management`); the code recognizes only two stem substrings. -/
theorem C7_counterexample :
    ¬ ∃ (s1 s2 s3 : List Char) (l1 l2 l3 l4 : String),
        (l1 ≠ l2 ∧ l1 ≠ l3 ∧ l1 ≠ l4 ∧ l2 ≠ l3 ∧ l2 ≠ l4 ∧ l3 ≠ l4) ∧
        (∀ p : String, "threat_pattern".data ∈ pathParts p.data →
          categorize_service_file p =
            (if containsSub s1 (pathStem p.data) then l1
             else if containsSub s2 (pathStem p.data) then l2
             else if containsSub s3 (pathStem p.data) then l3
             else l4)) ∧
        (∃ p1 : String, "threat_pattern".data ∈ pathParts p1.data ∧
          categorize_service_file p1 = l1) ∧
        (∃ p2 : String, "threat_pattern".data ∈ pathParts p2.data ∧
          categorize_service_file p2 = l2) ∧
        (∃ p3 : String, "threat_pattern".data ∈ pathParts p3.data ∧
          categorize_service_file p3 = l3) ∧
        (∃ p4 : String, "threat_pattern".data ∈ pathParts p4.data ∧
          categorize_service_file p4 = l4) := by
  rintro ⟨s1, s2, s3, l1, l2, l3, l4, ⟨h12, h13, h14, h23, h24, h34⟩, -,
    ⟨p1, hs1, e1⟩, ⟨p2, hs2, e2⟩, ⟨p3, hs3, e3⟩, ⟨p4, hs4, e4⟩⟩
  have m1 := categorize_subarea_cases hs1
  have m2 := categorize_subarea_cases hs2
  have m3 := categorize_subarea_cases hs3
  have m4 := categorize_subarea_cases hs4
  rw [e1] at m1
  rw [e2] at m2
  rw [e3] at m3
  rw [e4] at m4
  rcases m1 with rfl | rfl | rfl <;> rcases m2 with rfl | rfl | rfl <;>
    rcases m3 with rfl | rfl | rfl <;> rcases m4 with rfl | rfl | rfl <;> simp_all

/-! ## The checked re-execution agrees with the extractor and never fails -/

theorem docsChk_eq (lines : List (List Char)) :
    ∀ j acc, j ≤ lines.length →
      docsChkAux lines j acc = some (collectDocsAux lines j acc)
  | 0, acc, _ => rfl
  | j + 1, acc, h => by
    have hj : j < lines.length := Nat.lt_of_succ_le h
    have e1 : lines.get? j = some lines[j] := by
      rw [List.get?_eq_getElem?, List.getElem?_eq_getElem hj]
    have e2 : lines.getD j [] = lines[j] := List.getD_eq_getElem lines [] hj
    rw [docsChkAux, collectDocsAux, e1, e2]
    simp only [Option.bind_eq_bind, Option.some_bind]
    split_ifs with h1 h2
    · exact docsChk_eq lines j _ (Nat.le_of_lt hj)
    · exact docsChk_eq lines j _ (Nat.le_of_lt hj)
    · rfl

theorem peekPure_cons_blank {x : List Char} (rest : List (List Char)) (h : stripL x = []) :
    peekPure (x :: rest) = peekPure rest := by
  rw [peekPure, peekPure, List.dropWhile_cons, if_pos (by simp [h])]

theorem peekPure_cons_nonblank {x : List Char} (rest : List (List Char)) (h : stripL x ≠ []) :
    peekPure (x :: rest) = decide ((stripL x).take 1 = ['\x7b']) := by
  rw [peekPure, List.dropWhile_cons, if_neg (by simp [h])]

theorem peekChk_eq (lines : List (List Char)) :
    ∀ fuel nk, nk ≤ lines.length → lines.length < nk + fuel →
      peekChk lines fuel nk = some (peekPure (lines.drop nk))
  | 0, nk, h1, h2 => absurd h2 (by omega)
  | fuel + 1, nk, h1, h2 => by
    by_cases hnk : nk < lines.length
    · have e1 : lines.get? nk = some lines[nk] := by
        rw [List.get?_eq_getElem?, List.getElem?_eq_getElem hnk]
      rw [peekChk, if_pos hnk, e1]
      simp only [Option.bind_eq_bind, Option.some_bind]
      rw [List.drop_eq_getElem_cons hnk]
      by_cases hb : stripL lines[nk] = []
      · rw [if_pos hb, peekPure_cons_blank _ hb]
        exact peekChk_eq lines fuel (nk + 1) (by omega) (by omega)
      · rw [if_neg hb, peekPure_cons_nonblank _ hb]
    · have hnke : nk = lines.length := by omega
      rw [peekChk, if_neg hnk, hnke, List.drop_length]
      rfl

theorem sigChk_eq (lines : List (List Char)) (i : Nat) :
    ∀ fuel k paren inFunc acc, i ≤ k → k ≤ lines.length → lines.length < k + fuel →
      sigChkAux lines i fuel k paren inFunc acc =
        some (sigScan (lines.drop k) paren inFunc (decide (k = i)) acc)
  | 0, k, paren, inFunc, acc, _, hk1, hk2 => absurd hk2 (by omega)
  | fuel + 1, k, paren, inFunc, acc, hik, hk1, hk2 => by
    have hnext : decide (k + 1 = i) = false := by
      simp only [decide_eq_false_iff_not]
      omega
    by_cases hk : k < lines.length
    · have e1 : lines.get? k = some lines[k] := by
        rw [List.get?_eq_getElem?, List.getElem?_eq_getElem hk]
      rw [sigChkAux, if_pos hk, e1]
      simp only [Option.bind_eq_bind, Option.some_bind]
      rw [List.drop_eq_getElem_cons hk, sigScan]
      dsimp only
      by_cases hF : (inFunc || decide ((stripL lines[k]).take 5 = ['f', 'u', 'n', 'c', ' '])) =
          true
      · rw [if_pos hF, if_pos hF]
        by_cases hbr : (stripL lines[k]).contains '\x7b' = true
        · rw [if_pos hbr, if_pos hbr]
        · rw [if_neg hbr, if_neg hbr]
          by_cases hp : paren + ((stripL lines[k]).count '(' : Int) -
              ((stripL lines[k]).count ')' : Int) = 0
          · by_cases hki : k = i
            · rw [if_neg (by omega), if_neg (by simp [hki])]
              rw [sigChk_eq lines i fuel (k + 1) _ _ _ (by omega) (by omega) (by omega), hnext]
            · rw [if_pos ⟨hp, by omega⟩, if_pos ⟨hp, by simp [hki]⟩]
              rw [peekChk_eq lines (lines.length + 1) (k + 1) (by omega) (by omega)]
              simp only [Option.bind_eq_bind, Option.some_bind]
              by_cases hpk : peekPure (lines.drop (k + 1)) = true
              · rw [if_pos hpk, if_pos hpk]
              · rw [if_neg hpk, if_neg hpk]
                rw [sigChk_eq lines i fuel (k + 1) _ _ _ (by omega) (by omega) (by omega),
                  hnext]
          · rw [if_neg (by simp [hp]), if_neg (by simp [hp])]
            rw [sigChk_eq lines i fuel (k + 1) _ _ _ (by omega) (by omega) (by omega), hnext]
      · rw [if_neg hF, if_neg hF]
        rw [sigChk_eq lines i fuel (k + 1) _ _ _ (by omega) (by omega) (by omega), hnext]
    · have hke : k = lines.length := by omega
      rw [sigChkAux, if_neg hk, hke, List.drop_length]
      rfl

theorem extractChk_eq (lines : List (List Char)) :
    ∀ fuel i acc, i ≤ lines.length → lines.length < i + fuel →
      extractChkAux lines fuel i acc =
        some (acc ++ (List.range' i (lines.length - i)).filterMap fun j =>
          if isCandidate (stripL (lines.getD j [])) then processCandidate lines j else none)
  | 0, i, acc, h1, h2 => absurd h2 (by omega)
  | fuel + 1, i, acc, h1, h2 => by
    by_cases hi : i < lines.length
    · have e1 : lines.get? i = some lines[i] := by
        rw [List.get?_eq_getElem?, List.getElem?_eq_getElem hi]
      have e2 : lines.getD i [] = lines[i] := List.getD_eq_getElem lines [] hi
      have hrange : lines.length - i = (lines.length - (i + 1)) + 1 := by omega
      rw [extractChkAux, if_pos hi, e1]
      simp only [Option.bind_eq_bind, Option.some_bind]
      rw [hrange, List.range'_succ, List.filterMap_cons, e2]
      by_cases hc : isCandidate (stripL lines[i]) = true
      · rw [if_pos hc, if_pos hc]
        rw [docsChk_eq lines i [] (Nat.le_of_lt hi)]
        simp only [Option.bind_eq_bind, Option.some_bind]
        rw [sigChk_eq lines i (lines.length + 1) i 0 false [] (Nat.le_refl i)
          (Nat.le_of_lt hi) (by omega)]
        simp only [Option.bind_eq_bind, Option.some_bind, eq_self_iff_true, decide_True]
        rw [processCandidate]
        cases hm : funcNameMatch (stripL (joinSp (sigScan (lines.drop i) 0 false true []))) with
        | some nm =>
          simp only [hm]
          rw [extractChk_eq lines fuel (i + 1) _ (by omega) (by omega)]
          simp [List.append_assoc]
        | none =>
          simp only [hm]
          rw [extractChk_eq lines fuel (i + 1) _ (by omega) (by omega)]
      · rw [if_neg hc, if_neg hc]
        rw [extractChk_eq lines fuel (i + 1) _ (by omega) (by omega)]
    · have hie : i = lines.length := by omega
      rw [extractChkAux, if_neg hi, hie]
      simp

/-- C8: on every input text — malformed, truncated, arbitrary — the extractor
terminates and returns its (possibly empty) record list without raising: the
re-execution with every list subscript bounds-checked (`extractChk`, where an
out-of-bounds access would surface as `none`) succeeds and agrees with
`extract_go_functions`. -/
theorem C8_never_raises (content : String) :
    extractChk (splitOnChar '\n' content.data) = some (extractS content) := by
  rw [extractChk, extractS, extractLines,
    extractChk_eq (splitOnChar '\n' content.data) _ 0 [] (by omega) (by omega)]
  simp [List.range_eq_range']
